import Mathlib

/-!
Shallow embedding of src/hw/unit_tests/compute_unit/high_level_hamiltonian.py.

Vectors (numpy 1-D arrays) are modelled as lists of rationals; square numpy
2-D arrays are modelled by the structure NpMatrix: a size together with an
entry function (entries outside the size-by-size window are never read by
in-bounds computations).  Exact rational arithmetic stands in for numpy
numeric arithmetic; Python int() truncation toward zero is truncInt.
numpy matmul raises on a shape mismatch, so calculate_hamiltonian is
Option-valued: none models the raised condition.
-/

/-- Python int() applied to an exact rational: truncation toward zero. -/
def truncInt (q : ℚ) : ℤ := q.num.tdiv q.den

/-- A square numpy 2-D array of rationals: dimension and entry function.
The source indexes it as J[col, row], here e col row. -/
structure NpMatrix where
  size : ℕ
  e : ℕ → ℕ → ℚ

/-- spins = 2 * sigma - 1 (elementwise), from calculate_hamiltonian. -/
def toSpins (sigma : List ℚ) : List ℚ := sigma.map (fun b => 2 * b - 1)

/-- The exact value of spins.T @ J @ spins, evaluated as numpy does:
(spins @ J) @ spins, i.e. sum over j of (sum over i of spins i * J i j) * spins j. -/
def hamiltonianForm (sigma : List ℚ) (J : NpMatrix) : ℚ :=
  ∑ j in Finset.range J.size,
    (∑ i in Finset.range J.size, (toSpins sigma).getD i 0 * J.e i j) *
      (toSpins sigma).getD j 0

/-- calculate_hamiltonian(sigma, J): spins = 2*sigma-1, then int(spins.T @ J @ spins).
numpy matmul requires len(sigma) to equal the matrix dimension; a mismatch
raises, modelled by none. -/
def calculate_hamiltonian (sigma : List ℚ) (J : NpMatrix) : Option ℤ :=
  if sigma.length = J.size then some (truncInt (hamiltonianForm sigma J)) else none

/-- calculate_energy_difference(sigma_old, sigma_new, J) = H(new) - H(old);
old is evaluated first in the source, and either shape mismatch raises. -/
def calculate_energy_difference (sigma_old sigma_new : List ℚ) (J : NpMatrix) :
    Option ℤ :=
  match calculate_hamiltonian sigma_old J, calculate_hamiltonian sigma_new J with
  | some energy_old, some energy_new => some (energy_new - energy_old)
  | _, _ => none

/-- generate_constant_j_matrix(size, const_val) = np.ones((size, size)) * const_val. -/
def generate_constant_j_matrix (size : ℕ) (const_val : ℚ) : NpMatrix :=
  ⟨size, fun _ _ => const_val⟩

/-- generate_sigma_f(sigma_previous, sigma_new): numpy logical_xor of the two
vectors (any nonzero element counts as true) cast to int, paired with its
logical_not.  numpy broadcasting requires equal lengths; zipWith keeps the
common prefix, and every theorem below carries the equal-length hypothesis. -/
def generate_sigma_f (sigma_previous sigma_new : List ℚ) : List ℤ × List ℤ :=
  let sigma_f := List.zipWith
    (fun a b => if (a ≠ 0) ↔ (b ≠ 0) then (0 : ℤ) else 1) sigma_previous sigma_new
  (sigma_f, sigma_f.map (fun x => if x ≠ 0 then (0 : ℤ) else 1))

/-- generate_sigma_c(sigma_f, sigma_new, vector_size): starts from
np.zeros(len(sigma_f)) and for i < vector_size writes +1 or -1 where sigma_f[i]
is truthy (sign chosen by truthiness of sigma_new[i]), 0 elsewhere. -/
def generate_sigma_c (sigma_f : List ℤ) (sigma_new : List ℚ) (vector_size : ℕ) :
    List ℤ :=
  (List.range sigma_f.length).map (fun i =>
    if i < vector_size then
      if sigma_f.getD i 0 ≠ 0 then (if sigma_new.getD i 0 ≠ 0 then 1 else -1) else 0
    else 0)

/-- generate_sigma_r(sigma_f_inv, sigma_new, vector_size): same shape as
generate_sigma_c but gated by sigma_f_inv. -/
def generate_sigma_r (sigma_f_inv : List ℤ) (sigma_new : List ℚ) (vector_size : ℕ) :
    List ℤ :=
  (List.range sigma_f_inv.length).map (fun i =>
    if i < vector_size then
      if sigma_f_inv.getD i 0 ≠ 0 then (if sigma_new.getD i 0 ≠ 0 then 1 else -1) else 0
    else 0)

/-- energy_from_columns_full(sigma_bits, J, vector_size): for each column
col < vector_size accumulate sigma_bits[col] * (sum over row < vector_size of
sigma_bits[row] * J[col, row]), then int() the total. -/
def energy_from_columns_full (sigma_bits : List ℚ) (J : NpMatrix) (vector_size : ℕ) :
    ℤ :=
  truncInt (∑ col in Finset.range vector_size,
    sigma_bits.getD col 0 *
      ∑ row in Finset.range vector_size, sigma_bits.getD row 0 * J.e col row)

/-- calculate_expected_output(sigma_r, sigma_c, J, col_per_cc, vector_size):
the hardware-model accumulation over col_per_cc columns. -/
def calculate_expected_output (sigma_r sigma_c : List ℤ) (J : NpMatrix)
    (col_per_cc vector_size : ℕ) : ℤ :=
  truncInt (∑ col in Finset.range col_per_cc,
    (sigma_c.getD col 0 : ℚ) *
      ∑ row in Finset.range vector_size, (sigma_r.getD row 0 : ℚ) * J.e col row)

/-- verify_iterative_vs_hamiltonian(sigma_old, sigma_new, J, vector_size):
column-wise energies of both spin vectors, their difference, the closed-form
energy difference, and match = (iterative == hamiltonian). -/
def verify_iterative_vs_hamiltonian (sigma_old sigma_new : List ℚ) (J : NpMatrix)
    (vector_size : ℕ) : Option (Bool × ℤ × ℤ) :=
  let energy_new_cols := energy_from_columns_full (toSpins sigma_new) J vector_size
  let energy_old_cols := energy_from_columns_full (toSpins sigma_old) J vector_size
  let iterative_result := energy_new_cols - energy_old_cols
  match calculate_energy_difference sigma_old sigma_new J with
  | some hamiltonian_result =>
      some (decide (iterative_result = hamiltonian_result),
        iterative_result, hamiltonian_result)
  | none => none

/-- verify_global_flip_symmetry(J): energies at all-ones and all-zeros agree. -/
def verify_global_flip_symmetry (J : NpMatrix) : Bool :=
  match calculate_hamiltonian (List.replicate J.size 1) J,
        calculate_hamiltonian (List.replicate J.size 0) J with
  | some energy_ones, some energy_zeros => decide (energy_ones - energy_zeros = 0)
  | _, _ => false

/-! ### Helper lemmas about list indexing and truncation -/

lemma getD_of_lt {α : Type} [Inhabited α] (l : List α) (i : ℕ) (h : i < l.length)
    (d : α) : l.getD i d = l.get ⟨i, h⟩ := by
  rw [List.getD_eq_getElem?_getD]
  simp [List.getElem?_eq_getElem, h]

lemma getD_map_range {α : Type} [Inhabited α] (f : ℕ → α) (n i : ℕ) (h : i < n)
    (d : α) : ((List.range n).map f).getD i d = f i := by
  rw [List.getD_eq_getElem?_getD]
  simp [List.getElem?_eq_getElem, h]

lemma getD_map_range_ge {α : Type} [Inhabited α] (f : ℕ → α) (n i : ℕ) (h : n ≤ i)
    (d : α) : ((List.range n).map f).getD i d = d := by
  rw [List.getD_eq_getElem?_getD]
  rw [List.getElem?_eq_none (by simpa using h)]
  rfl

lemma getD_replicate {α : Type} [Inhabited α] (n i : ℕ) (h : i < n) (a d : α) :
    (List.replicate n a).getD i d = a := by
  rw [List.getD_eq_getElem?_getD]
  simp [List.getElem?_eq_getElem, h]

lemma getD_map_of_lt (l : List ℚ) (f : ℚ → ℚ) (i : ℕ) (h : i < l.length) (d : ℚ) :
    (l.map f).getD i d = f (l.getD i d) := by
  rw [List.getD_eq_getElem?_getD, List.getD_eq_getElem?_getD]
  simp [List.getElem?_eq_getElem, h]

lemma getD_zipWith (f : ℚ → ℚ → ℤ) (p q : List ℚ) (i : ℕ)
    (h1 : i < p.length) (h2 : i < q.length) (d : ℤ) :
    (List.zipWith f p q).getD i d = f (p.getD i 0) (q.getD i 0) := by
  rw [List.getD_eq_getElem?_getD]
  simp [List.getElem?_eq_getElem, List.length_zipWith, h1, h2, List.getElem_zipWith,
    List.getD_eq_getElem?_getD]

lemma getD_map_int (l : List ℤ) (f : ℤ → ℤ) (i : ℕ) (h : i < l.length) (d : ℤ) :
    (l.map f).getD i d = f (l.getD i d) := by
  rw [List.getD_eq_getElem?_getD, List.getD_eq_getElem?_getD]
  simp [List.getElem?_eq_getElem, h]

lemma getD_mem (l : List ℚ) (i : ℕ) (h : i < l.length) : l.getD i 0 ∈ l := by
  rw [getD_of_lt l i h]
  exact List.get_mem l i h

lemma toSpins_length (sigma : List ℚ) : (toSpins sigma).length = sigma.length := by
  simp [toSpins]

lemma toSpins_getD (sigma : List ℚ) (i : ℕ) (h : i < sigma.length) :
    (toSpins sigma).getD i 0 = 2 * sigma.getD i 0 - 1 :=
  getD_map_of_lt sigma _ i h 0

lemma truncInt_intCast (z : ℤ) : truncInt (z : ℚ) = z := by
  simp [truncInt, Rat.num_intCast, Rat.den_intCast]

/-- A rational that is (the cast of) an integer. -/
def IsIntQ (q : ℚ) : Prop := ∃ z : ℤ, q = (z : ℚ)

lemma isIntQ_add {a b : ℚ} (ha : IsIntQ a) (hb : IsIntQ b) : IsIntQ (a + b) := by
  obtain ⟨x, hx⟩ := ha
  obtain ⟨y, hy⟩ := hb
  exact ⟨x + y, by rw [hx, hy]; push_cast; ring⟩

lemma isIntQ_mul {a b : ℚ} (ha : IsIntQ a) (hb : IsIntQ b) : IsIntQ (a * b) := by
  obtain ⟨x, hx⟩ := ha
  obtain ⟨y, hy⟩ := hb
  exact ⟨x * y, by rw [hx, hy]; push_cast; ring⟩

lemma isIntQ_sum {s : Finset ℕ} {f : ℕ → ℚ} (h : ∀ i ∈ s, IsIntQ (f i)) :
    IsIntQ (∑ i in s, f i) :=
  Finset.sum_induction f IsIntQ (fun _ _ ha hb => isIntQ_add ha hb)
    ⟨0, by norm_num⟩ h

lemma truncInt_of_isIntQ {q : ℚ} (h : IsIntQ q) : (truncInt q : ℚ) = q := by
  obtain ⟨z, hz⟩ := h
  rw [hz, truncInt_intCast]

/-- The column-major double sum of energy_from_columns_full equals the
row-major double sum of hamiltonianForm, for any coefficient function. -/
lemma column_sum_eq_row_sum (s : ℕ → ℚ) (J : NpMatrix) (n : ℕ) :
    (∑ col in Finset.range n, s col * ∑ row in Finset.range n, s row * J.e col row) =
      ∑ j in Finset.range n, (∑ i in Finset.range n, s i * J.e i j) * s j := by
  simp only [Finset.mul_sum, Finset.sum_mul]
  rw [Finset.sum_comm]
  refine Finset.sum_congr rfl (fun j _ => ?_)
  refine Finset.sum_congr rfl (fun i _ => ?_)
  ring

lemma cols_full_eq_hamForm (sigma : List ℚ) (J : NpMatrix) :
    energy_from_columns_full (toSpins sigma) J J.size =
      truncInt (hamiltonianForm sigma J) := by
  unfold energy_from_columns_full hamiltonianForm
  rw [column_sum_eq_row_sum]

lemma calculate_hamiltonian_of_len (sigma : List ℚ) (J : NpMatrix)
    (h : sigma.length = J.size) :
    calculate_hamiltonian sigma J = some (truncInt (hamiltonianForm sigma J)) := by
  simp [calculate_hamiltonian, h]

/-! ### Claim theorems -/

/-- C1: for every binary configuration sigma of length N and every N-by-N numeric
matrix J, the column-wise accumulation energy_from_columns_full applied to the
configuration's spin vector 2*sigma - 1 with vector_size = N equals
calculate_hamiltonian(sigma, J) exactly. -/
theorem C1_column_accumulation_equiv (sigma : List ℚ) (J : NpMatrix)
    (hlen : sigma.length = J.size) (hbin : ∀ x ∈ sigma, x = 0 ∨ x = 1) :
    calculate_hamiltonian sigma J =
      some (energy_from_columns_full (toSpins sigma) J J.size) := by
  rw [cols_full_eq_hamForm, calculate_hamiltonian_of_len sigma J hlen]

theorem C1_column_accumulation_equiv_witness :
    (([(1 : ℚ), 0].length = (generate_constant_j_matrix 2 3).size) ∧
      (∀ x ∈ [(1 : ℚ), 0], x = 0 ∨ x = 1)) ∧
    calculate_hamiltonian [(1 : ℚ), 0] (generate_constant_j_matrix 2 3) =
      some (energy_from_columns_full (toSpins [(1 : ℚ), 0])
        (generate_constant_j_matrix 2 3) (generate_constant_j_matrix 2 3).size) :=
  ⟨⟨by decide, by decide⟩,
    C1_column_accumulation_equiv [(1 : ℚ), 0] (generate_constant_j_matrix 2 3)
      (by decide) (by decide)⟩

/-- C5: for every configuration whose length differs from the dimension of J,
calculate_hamiltonian signals the shape mismatch (none) and returns no numeric
result. -/
theorem C5_shape_mismatch (sigma : List ℚ) (J : NpMatrix)
    (h : sigma.length ≠ J.size) : calculate_hamiltonian sigma J = none := by
  simp [calculate_hamiltonian, h]

theorem C5_shape_mismatch_witness :
    ([(1 : ℚ)].length ≠ (generate_constant_j_matrix 2 1).size) ∧
    calculate_hamiltonian [(1 : ℚ)] (generate_constant_j_matrix 2 1) = none :=
  ⟨by decide, C5_shape_mismatch [(1 : ℚ)] (generate_constant_j_matrix 2 1) (by decide)⟩

/-- C9 counterexample: the claim says energy treats any nonzero element as 1, so
energy([2], [[1]]) would have to equal energy([1], [[1]]); the code computes
spin 2*2 - 1 = 3 and returns 9, while the thresholded configuration gives 1. -/
theorem C9_counterexample :
    calculate_hamiltonian [(2 : ℚ)] (generate_constant_j_matrix 1 1) = some 9 ∧
    calculate_hamiltonian [(1 : ℚ)] (generate_constant_j_matrix 1 1) = some 1 ∧
    (9 : ℤ) ≠ 1 := by
  refine ⟨?_, ?_, by decide⟩ <;>
  · simp only [calculate_hamiltonian, hamiltonianForm, generate_constant_j_matrix,
      toSpins, truncInt, Finset.sum_range_succ, Finset.sum_range_zero, List.map_cons,
      List.map_nil, List.getD, List.getElem?_cons_zero, List.length_cons,
      List.length_nil]
    norm_num

/-- C9 amended: the spin conversion used by energy is 2*x - 1 applied elementwise
with no thresholding; for any numeric configuration (binary or not) of matching
length, the computed energy is the column-accumulated bilinear form of the
vector 2*sigma - 1, so nonzero elements are not treated as 1. -/
theorem C9_no_threshold (sigma : List ℚ) (J : NpMatrix)
    (hlen : sigma.length = J.size) :
    calculate_hamiltonian sigma J =
      some (energy_from_columns_full (sigma.map (fun x => 2 * x - 1)) J J.size) := by
  rw [show sigma.map (fun x => 2 * x - 1) = toSpins sigma from rfl]
  rw [cols_full_eq_hamForm, calculate_hamiltonian_of_len sigma J hlen]

theorem C9_no_threshold_witness :
    ([(2 : ℚ)].length = (generate_constant_j_matrix 1 1).size) ∧
    calculate_hamiltonian [(2 : ℚ)] (generate_constant_j_matrix 1 1) =
      some (energy_from_columns_full ([(2 : ℚ)].map (fun x => 2 * x - 1))
        (generate_constant_j_matrix 1 1) (generate_constant_j_matrix 1 1).size) :=
  ⟨by decide, C9_no_threshold [(2 : ℚ)] (generate_constant_j_matrix 1 1) (by decide)⟩

/-- C6 counterexample: for the archetypal fractional J = [[1/2]] and sigma = [1]
the exact bilinear value is the non-integer 1/2, yet calculate_hamiltonian
returns the integer 0 (the int() truncation), not a non-integer result. -/
theorem C6_counterexample :
    calculate_hamiltonian [(1 : ℚ)] (generate_constant_j_matrix 1 (1 / 2)) = some 0 ∧
    hamiltonianForm [(1 : ℚ)] (generate_constant_j_matrix 1 (1 / 2)) = 1 / 2 ∧
    ((0 : ℚ) ≠ 1 / 2) := by
  refine ⟨?_, ?_, by norm_num⟩
  · simp only [calculate_hamiltonian, hamiltonianForm, generate_constant_j_matrix,
      toSpins, truncInt, Finset.sum_range_succ, Finset.sum_range_zero, List.map_cons,
      List.map_nil, List.getD, List.getElem?_cons_zero, List.length_cons,
      List.length_nil]
    norm_num
    decide
  · simp only [hamiltonianForm, generate_constant_j_matrix, toSpins,
      Finset.sum_range_succ, Finset.sum_range_zero, List.map_cons, List.map_nil,
      List.getD, List.getElem?_cons_zero]
    norm_num

@[simp] lemma generate_constant_j_matrix_size (N : ℕ) (c : ℚ) :
    (generate_constant_j_matrix N c).size = N := rfl

@[simp] lemma generate_constant_j_matrix_e (N : ℕ) (c : ℚ) (i j : ℕ) :
    (generate_constant_j_matrix N c).e i j = c := rfl

lemma toSpins_replicate_one (n : ℕ) :
    toSpins (List.replicate n 1) = List.replicate n 1 := by
  unfold toSpins
  rw [List.map_replicate]
  norm_num

lemma toSpins_replicate_zero (n : ℕ) :
    toSpins (List.replicate n 0) = List.replicate n (-1) := by
  unfold toSpins
  rw [List.map_replicate]
  norm_num

lemma hamForm_const_vec (J : NpMatrix) (a : ℚ) :
    hamiltonianForm (List.replicate J.size a) J =
      (2 * a - 1) * (2 * a - 1) *
        ∑ j in Finset.range J.size, ∑ i in Finset.range J.size, J.e i j := by
  unfold hamiltonianForm toSpins
  rw [List.map_replicate, Finset.mul_sum]
  refine Finset.sum_congr rfl (fun j hj => ?_)
  rw [getD_replicate _ _ (Finset.mem_range.mp hj),
    Finset.sum_congr rfl (fun i hi => by
      rw [getD_replicate _ _ (Finset.mem_range.mp hi)]),
    ← Finset.mul_sum]
  ring

lemma hamForm_ones_const (N : ℕ) (c : ℚ) :
    hamiltonianForm (List.replicate N 1) (generate_constant_j_matrix N c) =
      (N : ℚ) * ((N : ℚ) * c) := by
  have h := hamForm_const_vec (generate_constant_j_matrix N c) 1
  simp only [generate_constant_j_matrix_size, generate_constant_j_matrix_e] at h
  rw [h, Finset.sum_congr rfl (fun j _ => by
    rw [Finset.sum_const, Finset.card_range, nsmul_eq_mul]),
    Finset.sum_const, Finset.card_range, nsmul_eq_mul]
  ring

lemma ham_ones_const (N : ℕ) (c : ℤ) :
    calculate_hamiltonian (List.replicate N 1)
      (generate_constant_j_matrix N (c : ℚ)) = some ((N : ℤ) * N * c) := by
  rw [calculate_hamiltonian_of_len _ _ (by simp), hamForm_ones_const]
  rw [show ((N : ℚ) * ((N : ℚ) * (c : ℚ))) = (((N : ℤ) * N * c : ℤ) : ℚ) by
    push_cast; ring]
  rw [truncInt_intCast]

/-- C7: for every size N and integer constant c, the energy of the all-ones
configuration under the N-by-N matrix filled uniformly with c equals N*N*c;
in particular for N = 256 and c = 3 the energy is 196608. -/
theorem C7_scale_law :
    (∀ (N : ℕ) (c : ℤ),
      calculate_hamiltonian (List.replicate N 1)
        (generate_constant_j_matrix N (c : ℚ)) = some ((N : ℤ) * N * c)) ∧
    calculate_hamiltonian (List.replicate 256 1) (generate_constant_j_matrix 256 3) =
      some 196608 := by
  refine ⟨ham_ones_const, ?_⟩
  have h := ham_ones_const 256 3
  have e1 : ((3 : ℤ) : ℚ) = (3 : ℚ) := by norm_num
  have e2 : ((256 : ℕ) : ℤ) * ((256 : ℕ) : ℤ) * (3 : ℤ) = 196608 := by norm_num
  rw [e1, e2] at h
  exact h

/-- C3: for every square numeric matrix J, energy_difference between the
all-ones configuration and the all-zeros configuration is exactly 0: the
global spin inversion leaves the bilinear-form energy unchanged. -/
theorem C3_global_flip_symmetry (J : NpMatrix) :
    calculate_energy_difference (List.replicate J.size 1) (List.replicate J.size 0)
      J = some 0 := by
  have h1 := calculate_hamiltonian_of_len (List.replicate J.size (1 : ℚ)) J (by simp)
  have h0 := calculate_hamiltonian_of_len (List.replicate J.size (0 : ℚ)) J (by simp)
  have he : hamiltonianForm (List.replicate J.size (1 : ℚ)) J =
      hamiltonianForm (List.replicate J.size (0 : ℚ)) J := by
    rw [hamForm_const_vec, hamForm_const_vec]
    ring
  unfold calculate_energy_difference
  rw [h1, h0, he]
  show some (truncInt (hamiltonianForm (List.replicate J.size (0 : ℚ)) J) -
    truncInt (hamiltonianForm (List.replicate J.size (0 : ℚ)) J)) = some 0
  rw [sub_self]

/-- C2: for every pair of equal-length binary configurations, matching square J
and in-bounds active_size, verify_iterative_vs_hamiltonian computes each
configuration's energy via column-wise full accumulation using that
configuration's own spin vector, differences them, compares against
calculate_energy_difference, and returns match = true iff the two integers are
identical, together with both integer results. -/
theorem C2_verify_iterative_vs_full (sigma_old sigma_new : List ℚ) (J : NpMatrix)
    (vector_size : ℕ) (ho : sigma_old.length = J.size)
    (hn : sigma_new.length = J.size) (hv : vector_size ≤ J.size) :
    ∃ (m : Bool) (it full : ℤ),
      verify_iterative_vs_hamiltonian sigma_old sigma_new J vector_size =
        some (m, it, full) ∧
      it = energy_from_columns_full (toSpins sigma_new) J vector_size -
        energy_from_columns_full (toSpins sigma_old) J vector_size ∧
      calculate_energy_difference sigma_old sigma_new J = some full ∧
      (m = true ↔ it = full) := by
  have hdiff : calculate_energy_difference sigma_old sigma_new J =
      some (truncInt (hamiltonianForm sigma_new J) -
        truncInt (hamiltonianForm sigma_old J)) := by
    unfold calculate_energy_difference
    rw [calculate_hamiltonian_of_len _ _ ho, calculate_hamiltonian_of_len _ _ hn]
  refine ⟨_, _, _, ?_, rfl, hdiff, decide_eq_true_iff⟩
  unfold verify_iterative_vs_hamiltonian
  rw [hdiff]

lemma sigma_f_fst (p n : List ℚ) :
    (generate_sigma_f p n).1 = List.zipWith
      (fun a b => if (a ≠ 0) ↔ (b ≠ 0) then (0 : ℤ) else 1) p n := rfl

lemma sigma_f_snd (p n : List ℚ) :
    (generate_sigma_f p n).2 =
      (generate_sigma_f p n).1.map (fun x => if x ≠ 0 then (0 : ℤ) else 1) := rfl

lemma sigma_f_fst_length (p n : List ℚ) :
    (generate_sigma_f p n).1.length = min p.length n.length := by
  rw [sigma_f_fst]
  exact List.length_zipWith _ _ _

lemma sigma_f_snd_length (p n : List ℚ) :
    (generate_sigma_f p n).2.length = min p.length n.length := by
  rw [sigma_f_snd, List.length_map, sigma_f_fst_length]

lemma getD_of_ge {α : Type} [Inhabited α] (l : List α) (i : ℕ) (h : l.length ≤ i)
    (d : α) : l.getD i d = d := by
  rw [List.getD_eq_getElem?_getD, List.getElem?_eq_none h]
  rfl

lemma sigma_f_getD (p n : List ℚ) (i : ℕ) (h1 : i < p.length) (h2 : i < n.length) :
    (generate_sigma_f p n).1.getD i 0 =
      if (p.getD i 0 ≠ 0) ↔ (n.getD i 0 ≠ 0) then 0 else 1 := by
  rw [sigma_f_fst]
  exact getD_zipWith _ p n i h1 h2 0

lemma sigma_f_inv_getD (p n : List ℚ) (i : ℕ) (h1 : i < p.length)
    (h2 : i < n.length) :
    (generate_sigma_f p n).2.getD i 0 =
      if (generate_sigma_f p n).1.getD i 0 ≠ 0 then 0 else 1 := by
  rw [sigma_f_snd]
  exact getD_map_int _ _ i (by rw [sigma_f_fst_length]; exact lt_min h1 h2) 0

lemma sigma_c_getD_lt (sf : List ℤ) (snew : List ℚ) (vs i : ℕ)
    (h : i < sf.length) :
    (generate_sigma_c sf snew vs).getD i 0 =
      if i < vs then
        if sf.getD i 0 ≠ 0 then (if snew.getD i 0 ≠ 0 then 1 else -1) else 0
      else 0 := by
  unfold generate_sigma_c
  exact getD_map_range _ _ i h 0

lemma sigma_c_getD_ge (sf : List ℤ) (snew : List ℚ) (vs i : ℕ)
    (h : sf.length ≤ i) :
    (generate_sigma_c sf snew vs).getD i 0 = 0 := by
  unfold generate_sigma_c
  exact getD_map_range_ge _ _ i h 0

lemma sigma_r_getD_lt (sfi : List ℤ) (snew : List ℚ) (vs i : ℕ)
    (h : i < sfi.length) :
    (generate_sigma_r sfi snew vs).getD i 0 =
      if i < vs then
        if sfi.getD i 0 ≠ 0 then (if snew.getD i 0 ≠ 0 then 1 else -1) else 0
      else 0 := by
  unfold generate_sigma_r
  exact getD_map_range _ _ i h 0

lemma sigma_r_getD_ge (sfi : List ℤ) (snew : List ℚ) (vs i : ℕ)
    (h : sfi.length ≤ i) :
    (generate_sigma_r sfi snew vs).getD i 0 = 0 := by
  unfold generate_sigma_r
  exact getD_map_range_ge _ _ i h 0

/-- C4: for every pair of equal-length binary configurations and every in-bounds
active_size, the decomposition vectors satisfy: at every index exactly one of
sigma_f, sigma_f_inv is 1; sigma_c and sigma_r are never both nonzero at the
same index; and below active_size exactly one of sigma_c, sigma_r is nonzero. -/
theorem C4_decomposition_completeness (sigma_old sigma_new : List ℚ)
    (active_size : ℕ) (hlen : sigma_old.length = sigma_new.length)
    (hbo : ∀ x ∈ sigma_old, x = 0 ∨ x = 1)
    (hbn : ∀ x ∈ sigma_new, x = 0 ∨ x = 1)
    (ha : active_size ≤ sigma_old.length) :
    (∀ i < sigma_old.length,
      ((generate_sigma_f sigma_old sigma_new).1.getD i 0 = 1 ∧
        (generate_sigma_f sigma_old sigma_new).2.getD i 0 = 0) ∨
      ((generate_sigma_f sigma_old sigma_new).1.getD i 0 = 0 ∧
        (generate_sigma_f sigma_old sigma_new).2.getD i 0 = 1)) ∧
    (∀ i, ¬((generate_sigma_c (generate_sigma_f sigma_old sigma_new).1 sigma_new
          active_size).getD i 0 ≠ 0 ∧
        (generate_sigma_r (generate_sigma_f sigma_old sigma_new).2 sigma_new
          active_size).getD i 0 ≠ 0)) ∧
    (∀ i < active_size,
      ((generate_sigma_c (generate_sigma_f sigma_old sigma_new).1 sigma_new
          active_size).getD i 0 ≠ 0 ∧
        (generate_sigma_r (generate_sigma_f sigma_old sigma_new).2 sigma_new
          active_size).getD i 0 = 0) ∨
      ((generate_sigma_c (generate_sigma_f sigma_old sigma_new).1 sigma_new
          active_size).getD i 0 = 0 ∧
        (generate_sigma_r (generate_sigma_f sigma_old sigma_new).2 sigma_new
          active_size).getD i 0 ≠ 0)) := by
  have hsfLen : (generate_sigma_f sigma_old sigma_new).1.length =
      sigma_old.length := by
    rw [sigma_f_fst_length, hlen, min_self]
  have hsfiLen : (generate_sigma_f sigma_old sigma_new).2.length =
      sigma_old.length := by
    rw [sigma_f_snd_length, hlen, min_self]
  refine ⟨?_, ?_, ?_⟩
  · intro i hi
    have h2 : i < sigma_new.length := hlen ▸ hi
    rw [sigma_f_inv_getD _ _ _ hi h2, sigma_f_getD _ _ _ hi h2]
    by_cases hx : (sigma_old.getD i 0 ≠ 0) ↔ (sigma_new.getD i 0 ≠ 0)
    · right
      rw [if_pos hx]
      norm_num
    · left
      rw [if_neg hx]
      norm_num
  · rintro i ⟨hc, hr⟩
    by_cases hi : i < (generate_sigma_f sigma_old sigma_new).1.length
    · have hi2 : i < (generate_sigma_f sigma_old sigma_new).2.length := by
        rw [hsfiLen]
        rw [hsfLen] at hi
        exact hi
      have hip : i < sigma_old.length := hsfLen ▸ hi
      have hin : i < sigma_new.length := hlen ▸ hip
      rw [sigma_c_getD_lt _ _ _ _ hi] at hc
      rw [sigma_r_getD_lt _ _ _ _ hi2] at hr
      by_cases hv : i < active_size
      · rw [if_pos hv] at hc hr
        by_cases hsf : (generate_sigma_f sigma_old sigma_new).1.getD i 0 ≠ 0
        · rw [sigma_f_inv_getD _ _ _ hip hin, if_pos hsf] at hr
          simp at hr
        · rw [if_neg hsf] at hc
          exact hc rfl
      · rw [if_neg hv] at hc
        exact hc rfl
    · push_neg at hi
      rw [sigma_c_getD_ge _ _ _ _ hi] at hc
      exact hc rfl
  · intro i hiv
    have hip : i < sigma_old.length := lt_of_lt_of_le hiv ha
    have hin : i < sigma_new.length := hlen ▸ hip
    have hisf : i < (generate_sigma_f sigma_old sigma_new).1.length := by
      rw [hsfLen]
      exact hip
    have hisfi : i < (generate_sigma_f sigma_old sigma_new).2.length := by
      rw [hsfiLen]
      exact hip
    rw [sigma_c_getD_lt _ _ _ _ hisf, sigma_r_getD_lt _ _ _ _ hisfi,
      sigma_f_inv_getD _ _ _ hip hin, if_pos hiv, if_pos hiv]
    by_cases hsf : (generate_sigma_f sigma_old sigma_new).1.getD i 0 ≠ 0
    · left
      rw [if_pos hsf, if_pos hsf]
      constructor
      · split_ifs <;> norm_num
      · simp
    · right
      rw [if_neg hsf, if_neg hsf]
      refine ⟨rfl, ?_⟩
      rw [if_pos (by norm_num : (1 : ℤ) ≠ 0)]
      split_ifs <;> norm_num

/-- C10: for every pair of equal-length numeric input vectors, even with
elements outside 0 and 1, generate_sigma_f returns vectors of the same length
whose elements are 0 or 1 with sigma_f + sigma_f_inv = 1 at every index, where
any nonzero input element is interpreted as true in the XOR. -/
theorem C10_sigma_f_total (p n : List ℚ) (hlen : p.length = n.length) :
    (generate_sigma_f p n).1.length = p.length ∧
    (generate_sigma_f p n).2.length = p.length ∧
    (∀ i < p.length,
      ((generate_sigma_f p n).1.getD i 0 = 0 ∨
        (generate_sigma_f p n).1.getD i 0 = 1) ∧
      (generate_sigma_f p n).1.getD i 0 + (generate_sigma_f p n).2.getD i 0 = 1 ∧
      ((generate_sigma_f p n).1.getD i 0 = 1 ↔
        ¬((p.getD i 0 ≠ 0) ↔ (n.getD i 0 ≠ 0)))) := by
  refine ⟨by rw [sigma_f_fst_length, hlen, min_self],
    by rw [sigma_f_snd_length, hlen, min_self], ?_⟩
  intro i hi
  have h2 : i < n.length := hlen ▸ hi
  rw [sigma_f_inv_getD _ _ _ hi h2, sigma_f_getD _ _ _ hi h2]
  by_cases hx : (p.getD i 0 ≠ 0) ↔ (n.getD i 0 ≠ 0)
  · rw [if_pos hx]
    refine ⟨Or.inl rfl, by norm_num, ?_⟩
    exact ⟨fun h => absurd h (by norm_num), fun hnc => absurd hx hnc⟩
  · rw [if_neg hx]
    refine ⟨Or.inr rfl, by norm_num, ?_⟩
    exact ⟨fun _ => hx, fun _ => rfl⟩

/-- C8: for every pair of equal-length binary configurations, the new
configuration is reconstructible from the decomposition with active_size equal
to the full length: at every flipped index new = 1 iff sigma_c = +1, and at
every unflipped index new = 1 iff sigma_r = +1. -/
theorem C8_round_trip (sigma_old sigma_new : List ℚ)
    (hlen : sigma_old.length = sigma_new.length)
    (hbo : ∀ x ∈ sigma_old, x = 0 ∨ x = 1)
    (hbn : ∀ x ∈ sigma_new, x = 0 ∨ x = 1) :
    ∀ i < sigma_new.length,
      ((generate_sigma_f sigma_old sigma_new).1.getD i 0 = 1 →
        (sigma_new.getD i 0 = 1 ↔
          (generate_sigma_c (generate_sigma_f sigma_old sigma_new).1 sigma_new
            sigma_new.length).getD i 0 = 1)) ∧
      ((generate_sigma_f sigma_old sigma_new).1.getD i 0 = 0 →
        (sigma_new.getD i 0 = 1 ↔
          (generate_sigma_r (generate_sigma_f sigma_old sigma_new).2 sigma_new
            sigma_new.length).getD i 0 = 1)) := by
  intro i hi
  have hip : i < sigma_old.length := hlen ▸ hi
  have hisf : i < (generate_sigma_f sigma_old sigma_new).1.length := by
    rw [sigma_f_fst_length, hlen, min_self]
    exact hi
  have hisfi : i < (generate_sigma_f sigma_old sigma_new).2.length := by
    rw [sigma_f_snd_length, hlen, min_self]
    exact hi
  constructor
  · intro hf1
    rw [sigma_c_getD_lt _ _ _ _ hisf, if_pos hi, hf1,
      if_pos (by norm_num : (1 : ℤ) ≠ 0)]
    rcases hbn _ (getD_mem sigma_new i hi) with h0 | h1
    · rw [h0, if_neg (by norm_num : ¬((0 : ℚ) ≠ 0))]
      exact ⟨fun h => absurd h (by norm_num), fun h => absurd h (by norm_num)⟩
    · rw [h1, if_pos (by norm_num : (1 : ℚ) ≠ 0)]
      exact ⟨fun _ => rfl, fun _ => rfl⟩
  · intro hf0
    rw [sigma_r_getD_lt _ _ _ _ hisfi, if_pos hi,
      sigma_f_inv_getD _ _ _ hip hi, hf0,
      if_neg (by norm_num : ¬((0 : ℤ) ≠ 0)),
      if_pos (by norm_num : (1 : ℤ) ≠ 0)]
    rcases hbn _ (getD_mem sigma_new i hi) with h0 | h1
    · rw [h0, if_neg (by norm_num : ¬((0 : ℚ) ≠ 0))]
      exact ⟨fun h => absurd h (by norm_num), fun h => absurd h (by norm_num)⟩
    · rw [h1, if_pos (by norm_num : (1 : ℚ) ≠ 0)]
      exact ⟨fun _ => rfl, fun _ => rfl⟩

lemma isIntQ_hamForm (sigma : List ℚ) (J : NpMatrix) (hlen : sigma.length = J.size)
    (hs : ∀ x ∈ sigma, ∃ z : ℤ, x = (z : ℚ))
    (hJ : ∀ i j, i < J.size → j < J.size → ∃ z : ℤ, J.e i j = (z : ℚ)) :
    IsIntQ (hamiltonianForm sigma J) := by
  have hspin : ∀ k, k < J.size → IsIntQ ((toSpins sigma).getD k 0) := by
    intro k hk
    have hk2 : k < sigma.length := by omega
    rw [toSpins_getD sigma k hk2]
    obtain ⟨z, hz⟩ := hs _ (getD_mem sigma k hk2)
    exact ⟨2 * z - 1, by rw [hz]; push_cast; ring⟩
  unfold hamiltonianForm
  refine isIntQ_sum (fun j hj => ?_)
  refine isIntQ_mul (isIntQ_sum (fun i hi => ?_)) (hspin j (Finset.mem_range.mp hj))
  exact isIntQ_mul (hspin i (Finset.mem_range.mp hi))
    (hJ i j (Finset.mem_range.mp hi) (Finset.mem_range.mp hj))

/-- C6 amended: for integer-valued configuration and J of matching dimension,
calculate_hamiltonian returns the exact integer value of the bilinear form;
for fractional J the exact value is truncated toward zero by int(), so the
result is always an integer, never a floating value. -/
theorem C6_integer_exactness (sigma : List ℚ) (J : NpMatrix)
    (hlen : sigma.length = J.size)
    (hs : ∀ x ∈ sigma, ∃ z : ℤ, x = (z : ℚ))
    (hJ : ∀ i j, i < J.size → j < J.size → ∃ z : ℤ, J.e i j = (z : ℚ)) :
    ∃ z : ℤ, calculate_hamiltonian sigma J = some z ∧
      (z : ℚ) = hamiltonianForm sigma J := by
  refine ⟨truncInt (hamiltonianForm sigma J),
    calculate_hamiltonian_of_len _ _ hlen, ?_⟩
  exact truncInt_of_isIntQ (isIntQ_hamForm sigma J hlen hs hJ)

theorem C2_verify_iterative_vs_full_witness :
    (([(1 : ℚ), 1].length = (generate_constant_j_matrix 2 1).size) ∧
      ([(1 : ℚ), 0].length = (generate_constant_j_matrix 2 1).size) ∧
      (2 ≤ (generate_constant_j_matrix 2 1).size)) ∧
    (∃ (m : Bool) (it full : ℤ),
      verify_iterative_vs_hamiltonian [(1 : ℚ), 1] [(1 : ℚ), 0]
        (generate_constant_j_matrix 2 1) 2 = some (m, it, full) ∧
      it = energy_from_columns_full (toSpins [(1 : ℚ), 0])
          (generate_constant_j_matrix 2 1) 2 -
        energy_from_columns_full (toSpins [(1 : ℚ), 1])
          (generate_constant_j_matrix 2 1) 2 ∧
      calculate_energy_difference [(1 : ℚ), 1] [(1 : ℚ), 0]
        (generate_constant_j_matrix 2 1) = some full ∧
      (m = true ↔ it = full)) :=
  ⟨⟨by decide, by decide, by decide⟩,
    C2_verify_iterative_vs_full [(1 : ℚ), 1] [(1 : ℚ), 0]
      (generate_constant_j_matrix 2 1) 2 (by decide) (by decide) (by decide)⟩

theorem C4_decomposition_completeness_witness :
    (([(1 : ℚ), 1, 0].length = [(1 : ℚ), 0, 0].length) ∧
      (∀ x ∈ [(1 : ℚ), 1, 0], x = 0 ∨ x = 1) ∧
      (∀ x ∈ [(1 : ℚ), 0, 0], x = 0 ∨ x = 1) ∧
      (2 ≤ [(1 : ℚ), 1, 0].length)) ∧
    ((∀ i < [(1 : ℚ), 1, 0].length,
      ((generate_sigma_f [(1 : ℚ), 1, 0] [(1 : ℚ), 0, 0]).1.getD i 0 = 1 ∧
        (generate_sigma_f [(1 : ℚ), 1, 0] [(1 : ℚ), 0, 0]).2.getD i 0 = 0) ∨
      ((generate_sigma_f [(1 : ℚ), 1, 0] [(1 : ℚ), 0, 0]).1.getD i 0 = 0 ∧
        (generate_sigma_f [(1 : ℚ), 1, 0] [(1 : ℚ), 0, 0]).2.getD i 0 = 1)) ∧
    (∀ i, ¬((generate_sigma_c (generate_sigma_f [(1 : ℚ), 1, 0] [(1 : ℚ), 0, 0]).1
          [(1 : ℚ), 0, 0] 2).getD i 0 ≠ 0 ∧
        (generate_sigma_r (generate_sigma_f [(1 : ℚ), 1, 0] [(1 : ℚ), 0, 0]).2
          [(1 : ℚ), 0, 0] 2).getD i 0 ≠ 0)) ∧
    (∀ i < 2,
      ((generate_sigma_c (generate_sigma_f [(1 : ℚ), 1, 0] [(1 : ℚ), 0, 0]).1
          [(1 : ℚ), 0, 0] 2).getD i 0 ≠ 0 ∧
        (generate_sigma_r (generate_sigma_f [(1 : ℚ), 1, 0] [(1 : ℚ), 0, 0]).2
          [(1 : ℚ), 0, 0] 2).getD i 0 = 0) ∨
      ((generate_sigma_c (generate_sigma_f [(1 : ℚ), 1, 0] [(1 : ℚ), 0, 0]).1
          [(1 : ℚ), 0, 0] 2).getD i 0 = 0 ∧
        (generate_sigma_r (generate_sigma_f [(1 : ℚ), 1, 0] [(1 : ℚ), 0, 0]).2
          [(1 : ℚ), 0, 0] 2).getD i 0 ≠ 0))) :=
  ⟨⟨by decide, by decide, by decide, by decide⟩,
    C4_decomposition_completeness [(1 : ℚ), 1, 0] [(1 : ℚ), 0, 0] 2
      (by decide) (by decide) (by decide) (by decide)⟩

theorem C8_round_trip_witness :
    (([(1 : ℚ), 0].length = [(0 : ℚ), 0].length) ∧
      (∀ x ∈ [(1 : ℚ), 0], x = 0 ∨ x = 1) ∧
      (∀ x ∈ [(0 : ℚ), 0], x = 0 ∨ x = 1)) ∧
    (∀ i < [(0 : ℚ), 0].length,
      ((generate_sigma_f [(1 : ℚ), 0] [(0 : ℚ), 0]).1.getD i 0 = 1 →
        (List.getD [(0 : ℚ), 0] i 0 = 1 ↔
          (generate_sigma_c (generate_sigma_f [(1 : ℚ), 0] [(0 : ℚ), 0]).1
            [(0 : ℚ), 0] [(0 : ℚ), 0].length).getD i 0 = 1)) ∧
      ((generate_sigma_f [(1 : ℚ), 0] [(0 : ℚ), 0]).1.getD i 0 = 0 →
        (List.getD [(0 : ℚ), 0] i 0 = 1 ↔
          (generate_sigma_r (generate_sigma_f [(1 : ℚ), 0] [(0 : ℚ), 0]).2
            [(0 : ℚ), 0] [(0 : ℚ), 0].length).getD i 0 = 1))) :=
  ⟨⟨by decide, by decide, by decide⟩,
    C8_round_trip [(1 : ℚ), 0] [(0 : ℚ), 0] (by decide) (by decide) (by decide)⟩

theorem C10_sigma_f_total_witness :
    ([(2 : ℚ), 0].length = [(0 : ℚ), 3].length) ∧
    ((generate_sigma_f [(2 : ℚ), 0] [(0 : ℚ), 3]).1.length = [(2 : ℚ), 0].length ∧
    (generate_sigma_f [(2 : ℚ), 0] [(0 : ℚ), 3]).2.length = [(2 : ℚ), 0].length ∧
    (∀ i < [(2 : ℚ), 0].length,
      ((generate_sigma_f [(2 : ℚ), 0] [(0 : ℚ), 3]).1.getD i 0 = 0 ∨
        (generate_sigma_f [(2 : ℚ), 0] [(0 : ℚ), 3]).1.getD i 0 = 1) ∧
      (generate_sigma_f [(2 : ℚ), 0] [(0 : ℚ), 3]).1.getD i 0 +
        (generate_sigma_f [(2 : ℚ), 0] [(0 : ℚ), 3]).2.getD i 0 = 1 ∧
      ((generate_sigma_f [(2 : ℚ), 0] [(0 : ℚ), 3]).1.getD i 0 = 1 ↔
        ¬((List.getD [(2 : ℚ), 0] i 0 ≠ 0) ↔ (List.getD [(0 : ℚ), 3] i 0 ≠ 0))))) :=
  ⟨by decide, C10_sigma_f_total [(2 : ℚ), 0] [(0 : ℚ), 3] (by decide)⟩

theorem C6_integer_exactness_witness :
    (([(1 : ℚ), 0].length = (generate_constant_j_matrix 2 3).size) ∧
      (∀ x ∈ [(1 : ℚ), 0], ∃ z : ℤ, x = (z : ℚ))) ∧
    (∃ z : ℤ, calculate_hamiltonian [(1 : ℚ), 0] (generate_constant_j_matrix 2 3) =
        some z ∧
      (z : ℚ) = hamiltonianForm [(1 : ℚ), 0] (generate_constant_j_matrix 2 3)) := by
  have h1 : [(1 : ℚ), 0].length = (generate_constant_j_matrix 2 3).size := by decide
  have h2 : ∀ x ∈ [(1 : ℚ), 0], ∃ z : ℤ, x = (z : ℚ) := by
    intro x hx
    simp only [List.mem_cons, List.not_mem_nil, or_false] at hx
    rcases hx with rfl | rfl
    · exact ⟨1, by norm_num⟩
    · exact ⟨0, by norm_num⟩
  have h3 : ∀ i j, i < (generate_constant_j_matrix 2 3).size →
      j < (generate_constant_j_matrix 2 3).size →
      ∃ z : ℤ, (generate_constant_j_matrix 2 3).e i j = (z : ℚ) :=
    fun i j _ _ => ⟨3, by norm_num⟩
  exact ⟨⟨h1, h2⟩,
    C6_integer_exactness [(1 : ℚ), 0] (generate_constant_j_matrix 2 3) h1 h2 h3⟩

/-- C7 counterexample: the scale law fails for fractional constants: with N = 1
and c = 1/2 the all-ones energy is int(1/2) = 0, not N*N*c = 1/2. -/
theorem C7_counterexample :
    calculate_hamiltonian (List.replicate 1 (1 : ℚ))
      (generate_constant_j_matrix 1 (1 / 2)) = some 0 ∧
    ¬(((0 : ℤ) : ℚ) = 1 * 1 * (1 / 2)) := by
  constructor
  · simp only [calculate_hamiltonian, hamiltonianForm, generate_constant_j_matrix,
      toSpins, truncInt, Finset.sum_range_succ, Finset.sum_range_zero,
      List.replicate, List.map_cons, List.map_nil, List.getD,
      List.getElem?_cons_zero, List.length_cons, List.length_nil]
    norm_num
    decide
  · norm_num
